import Mathlib

/-!
Verification of the bankcsv converter (`main.go`).

The program reads bank CSV exports, detects the vendor sub-format per file,
turns data rows into transactions with date-derived identifiers, classifies
each transaction by regex rules, and emits double-entry CSV rows.

Modelling conventions used throughout this shallow embedding:
* CSV records are `List String` (the fields produced by `encoding/csv`);
  an input file is a `List (List String)` of records.
* Fatal exits (`log.Fatal`, `log.Panicf`, out-of-range indexing) are `none`
  in an `Option` result.
* `regexp.MatchString` is kept abstract as a parameter
  `matchString : String → String → Bool` (pattern, text); for metacharacter
  free patterns it is instantiated with literal substring search
  (`literalMatch`), which is what Go's engine computes on such patterns.
* The initial `lastdate` is `time.Now()`, which is never equal (under Go's
  `==` on `time.Time`, which includes the monotonic clock reading) to any
  value returned by `time.Parse`; it is modelled as `Option.none`.
-/

namespace Bankcsv

/-- Calendar date as produced by Go's `time.Parse("02/01/2006", _)`. -/
structure GoDate where
  year : Nat
  month : Nat
  day : Nat
deriving DecidableEq, Repr

/-- Gregorian leap-year rule used by Go's `time` package. -/
def isLeapYear (y : Nat) : Bool := (y % 4 == 0 && y % 100 != 0) || y % 400 == 0

/-- Number of days in a month, as validated by Go's date parser. -/
def daysInMonth (y m : Nat) : Nat :=
  if m = 2 then (if isLeapYear y then 29 else 28)
  else if m = 4 ∨ m = 6 ∨ m = 9 ∨ m = 11 then 30
  else 31

/-- ASCII decimal digit test (Go's date parser accepts only these). -/
def isDigitChar (c : Char) : Bool := 48 ≤ c.toNat && c.toNat ≤ 57

/-- Numeric value of an ASCII digit character. -/
def digitVal (c : Char) : Nat := c.toNat - 48

/-- `time.Parse("02/01/2006", s)`: exactly `DD/MM/YYYY` with zero-padded
components, month in 1..12 and day valid for the month; anything else is a
parse error (`log.Fatal` in `ymdParse`, modelled as `none`). -/
def ymdParse (s : String) : Option GoDate :=
  match s.data with
  | [a1, a2, s1, b1, b2, s2, c1, c2, c3, c4] =>
    if s1 = '/' ∧ s2 = '/' ∧
       isDigitChar a1 ∧ isDigitChar a2 ∧ isDigitChar b1 ∧ isDigitChar b2 ∧
       isDigitChar c1 ∧ isDigitChar c2 ∧ isDigitChar c3 ∧ isDigitChar c4 then
      let day := digitVal a1 * 10 + digitVal a2
      let month := digitVal b1 * 10 + digitVal b2
      let year := ((digitVal c1 * 10 + digitVal c2) * 10 + digitVal c3) * 10 + digitVal c4
      if 1 ≤ month ∧ month ≤ 12 ∧ 1 ≤ day ∧ day ≤ daysInMonth year month then
        some ⟨year, month, day⟩
      else none
    else none
  | _ => none

/-- The white-space class of Go's `unicode.IsSpace` (used by
`strings.TrimSpace`). -/
def goIsSpace (c : Char) : Bool :=
  c = ' ' || c = '\t' || c = '\n' || c = '\x0b' || c = '\x0c' || c = '\r' ||
  c = '\x85' || c = '\xa0' || c.toNat = 0x1680 ||
  (0x2000 ≤ c.toNat && c.toNat ≤ 0x200a) || c.toNat = 0x2028 || c.toNat = 0x2029 ||
  c.toNat = 0x202f || c.toNat = 0x205f || c.toNat = 0x3000

/-- `strings.TrimSpace`: drop white space from both ends. -/
def trimSpace (s : String) : String :=
  String.mk (((s.data.dropWhile goIsSpace).reverse.dropWhile goIsSpace).reverse)

/-- `fmt.Sprintf("%0wd", n)` for a natural `n`: left-pad the decimal digits
with zeros to width `w` (more digits are kept if `n` needs them). -/
def padNum (w n : Nat) : String :=
  String.mk (List.replicate (w - (Nat.repr n).length) '0') ++ Nat.repr n

/-- Transaction id `fmt.Sprintf("%04d%02d%02d%02d", year, month, day, counter)`
built in `lineParse`. -/
def idFormat (d : GoDate) (c : Nat) : String :=
  padNum 4 d.year ++ padNum 2 d.month ++ padNum 2 d.day ++ padNum 2 c

/-- `t.Date.Format("2006-01-02")` used by the CSV emitter. -/
def dateFormat (d : GoDate) : String :=
  padNum 4 d.year ++ "-" ++ padNum 2 d.month ++ "-" ++ padNum 2 d.day

/-- The `transaction` record of `main.go`. -/
structure transaction where
  ID : String
  Date : GoDate
  Description : String
  Value : String
  Account : String
  SrcAccount : String
deriving DecidableEq, Repr

/-- One entry of the json config's `AccountFromDescription` list. -/
structure accountFromDescription where
  Account : String
  Regex : String
deriving DecidableEq, Repr

/-- The running parser state threaded through `inputsParse`'s goroutine:
the `lastdate` and `counter` locals (initialised once for the whole run). -/
structure ParseState where
  lastdate : Option GoDate
  counter : Nat
deriving DecidableEq, Repr

/-- `valueParse`: the credit layout reads field 3, the debit layout field 5
(trimmed); an empty or `"0.00"` primary field falls back to field 4 (credit)
resp. field 6 (debit), trimmed and prefixed with `-`.  Out-of-range field
access is a Go panic, modelled as `none`. -/
def valueParse (line : List String) (iscredit : Bool) : Option String :=
  match line.get? (if iscredit then 3 else 5) with
  | none => none
  | some raw =>
    if trimSpace raw = "0.00" ∨ trimSpace raw = "" then
      match line.get? (if iscredit then 4 else 6) with
      | none => none
      | some fb => some ("-" ++ trimSpace fb)
    else some (trimSpace raw)

/-- `lineParse` combined with the `ymdParse` state update: parse the date
from field 1, reset the counter to 1 when the date differs from `lastdate`
(note that when it does not differ, `lastdate` is already `some date`, so
the new state's `lastdate` is `some date` in both cases), build the
transaction from fields 2 and the value fields.  Returns the transaction
and the state *before* the post-send `counter++`. -/
def lineParse (line : List String) (iscredit : Bool) (st : ParseState) :
    Option (transaction × ParseState) :=
  match line.get? 1 with
  | none => none
  | some dateStr =>
    match ymdParse dateStr with
    | none => none
    | some date =>
      match line.get? 2 with
      | none => none
      | some desc =>
        match valueParse line iscredit with
        | none => none
        | some value =>
          some (⟨idFormat date (if some date ≠ st.lastdate then 1 else st.counter),
                 date, desc, value, "", ""⟩,
                ⟨some date, if some date ≠ st.lastdate then 1 else st.counter⟩)

/-- One iteration of the record loop in `inputsParse`: either a header
marker row (field 1 equals the fixed literal) that switches the sub-format
and yields no transaction, or a data row parsed by `lineParse` followed by
`counter++`.  An unrecognized header's first field is `log.Panicf`
(`none`). -/
def rowStep (line : List String) (iscredit : Bool) (st : ParseState) :
    Option (Bool × ParseState × Option transaction) :=
  match line.get? 1 with
  | none => none
  | some f1 =>
    if f1 = " Posted Transactions Date" then
      match line.get? 0 with
      | none => none
      | some f0 =>
        if f0 = "Masked Card Number" then some (true, st, none)
        else if f0 = "Posted Account" then some (false, st, none)
        else none
    else
      match lineParse line iscredit st with
      | none => none
      | some (t, st1) => some (iscredit, ⟨st1.lastdate, st1.counter + 1⟩, some t)

/-- The record loop of `inputsParse` over one file's records, threading the
sub-format flag and the date/counter state and collecting the produced
transactions in order. -/
def rowsParse (lines : List (List String)) (iscredit : Bool) (st : ParseState) :
    Option (Bool × ParseState × List transaction) :=
  match lines with
  | [] => some (iscredit, st, [])
  | l :: ls =>
    match rowStep l iscredit st with
    | none => none
    | some (ic1, st1, tOpt) =>
      match rowsParse ls ic1 st1 with
      | none => none
      | some (ic2, st2, ts) => some (ic2, st2, tOpt.elim ts (fun t => t :: ts))

/-- The file loop of `inputsParse`: each file starts with a fresh
`var iscredit bool` (i.e. `false`, the debit layout), while the
date/counter state is threaded across files. -/
def filesParse (files : List (List (List String))) (st : ParseState) :
    Option (ParseState × List transaction) :=
  match files with
  | [] => some (st, [])
  | f :: fs =>
    match rowsParse f false st with
    | none => none
    | some (_, st1, ts) =>
      match filesParse fs st1 with
      | none => none
      | some (st2, ts2) => some (st2, ts ++ ts2)

/-- `inputsParse`: the whole multi-file scan, starting from
`lastdate := time.Now()` (never equal to a parsed date, modelled `none`)
and `counter := 1`. -/
def inputsParse (files : List (List (List String))) : Option (List transaction) :=
  match filesParse files ⟨none, 1⟩ with
  | none => none
  | some (_, ts) => some ts

/-- The sign flip in `outputCsvFormat.Add`: strip a leading `-`, else
prepend one.  Indexing `t.Value[0]` on an empty string is a Go panic
(`none`). -/
def invertValue (v : String) : Option String :=
  match v.data with
  | [] => none
  | c :: cs => some (if c = '-' then String.mk cs else "-" ++ v)

/-- `outputCsvFormat.Add`: always write the source record; when `Account`
is non-empty also write the destination record with the inverted value. -/
def addTransaction (t : transaction) : Option (List (List String)) :=
  let src := [t.ID, dateFormat t.Date, t.Description, t.Value, t.SrcAccount]
  if t.Account ≠ "" then
    match invertValue t.Value with
    | none => none
    | some v => some [src, ["", "", "", v, t.Account]]
  else some [src]

/-- The rule loop in `processCsvs`: every matching rule overwrites
`t.Account` and sets `found`, starting from `("", false)`. -/
def classifyFold (matchString : String → String → Bool)
    (rules : List accountFromDescription) (desc : String) : String × Bool :=
  rules.foldl (fun acc r => if matchString r.Regex desc then (r.Account, true) else acc)
    ("", false)

/-- The body of the consumer loop in `processCsvs` for one transaction:
stamp `SrcAccount`, classify, and either emit via `Add` (when a rule
matched) or record the `log.Printf` warning (when none did).  Returns the
emitted CSV records and the warnings. -/
def processOne (matchString : String → String → Bool)
    (rules : List accountFromDescription) (srcAccount : String) (t : transaction) :
    Option (List (List String) × List String) :=
  if (classifyFold matchString rules t.Description).2 then
    match addTransaction { t with SrcAccount := srcAccount,
                                  Account := (classifyFold matchString rules t.Description).1 } with
    | none => none
    | some rows => some (rows, [])
  else some ([], ["could not assign account to " ++ t.Description])

/-- `processCsvs` after config loading and output setup: drain the parsed
transaction stream, classify and emit each transaction, collecting the CSV
records (after the fixed header line) and the operator-log warnings. -/
def processCsvs (matchString : String → String → Bool)
    (rules : List accountFromDescription) (srcAccount : String)
    (files : List (List (List String))) :
    Option (List (List String) × List String) :=
  match inputsParse files with
  | none => none
  | some ts =>
    ts.foldlM (fun acc t =>
      match processOne matchString rules srcAccount t with
      | none => none
      | some p => some (acc.1 ++ p.1, acc.2 ++ p.2)) (([], []) : List (List String) × List String)

/-- Outcome of `main`'s argument handling. -/
inductive MainOutcome where
  | usageExit1 : MainOutcome
  | run (srcAccount : String) (jsonName : String) (inputNames : List String) : MainOutcome
deriving DecidableEq, Repr

/-- `main` after `flag.Parse()`: `flag.NArg() != 3` prints the usage text
to stderr and exits with code 1; otherwise the three positionals become
`srcAccount`, `jsonName` and `inputNames = args[2:]`. -/
def mainArgs (args : List String) : MainOutcome :=
  if args.length ≠ 3 then MainOutcome.usageExit1
  else MainOutcome.run (args.getD 0 "") (args.getD 1 "") (args.drop 2)

/-- Substring search on character lists. -/
def containsSub (pat : List Char) : List Char → Bool
  | [] => pat.isEmpty
  | c :: rest => pat.isPrefixOf (c :: rest) || containsSub pat rest

/-- `regexp.MatchString pat s` for a metacharacter-free `pat`: the regex
matches somewhere in `s` iff `pat` occurs in `s` as a substring. -/
def literalMatch (pat s : String) : Bool := containsSub pat.data s.data

/-! Specification-side definitions (from the spec's words, for refinement
statements about the sequence counter). -/

/-- Modelled from the spec: the sequence-counter values assigned to a
stream of transaction dates — reset to 1 whenever the date differs from the
immediately preceding one (initially from `last`), otherwise continue with
the incremented counter. -/
def counterSpec (last : Option GoDate) (c : Nat) : List GoDate → List Nat
  | [] => []
  | d :: ds => (if some d ≠ last then 1 else c) ::
      counterSpec (some d) ((if some d ≠ last then 1 else c) + 1) ds

/-- Modelled from the spec: the final (lastdate, counter) state after a
stream of dates. -/
def specFinal (last : Option GoDate) (c : Nat) : List GoDate → Option GoDate × Nat
  | [] => (last, c)
  | d :: ds => specFinal (some d) ((if some d ≠ last then 1 else c) + 1) ds

/-- A date stream is grouped when equal dates are contiguous: whenever the
head date occurs again in the tail, it does so at the tail's head. -/
inductive Grouped : List GoDate → Prop where
  | nil : Grouped []
  | cons (d : GoDate) (l : List GoDate) : Grouped l → (d ∈ l → l.head? = some d) →
      Grouped (d :: l)

/-- Read a digit string as a number (big-endian accumulator). -/
def decDigits (a : Nat) (l : List Char) : Nat :=
  l.foldl (fun x c => x * 10 + (c.toNat - 48)) a

/-- Reference decimal-digit expansion of a natural number. -/
def digitsSpec (n : Nat) : List Char :=
  if n < 10 then [Nat.digitChar n]
  else digitsSpec (n / 10) ++ [Nat.digitChar (n % 10)]
termination_by n
decreasing_by exact Nat.div_lt_self (by omega) (by omega)

/-- Numeric key of a transaction id: date and counter packed in base 100. -/
def idValue (d : GoDate) (c : Nat) : Nat :=
  ((d.year * 100 + d.month) * 100 + d.day) * 100 + c

/-- Valid ranges of a parsed date. -/
def dateOK (d : GoDate) : Prop :=
  d.year ≤ 9999 ∧ 1 ≤ d.month ∧ d.month ≤ 12 ∧ 1 ≤ d.day ∧ d.day ≤ 31

/-! Concrete inputs used by witnesses and counterexamples. -/

/-- A single-file run whose only data row matches no classification rule. -/
def c1CexFiles : List (List (List String)) :=
  [[["x", "01/02/2020", "Coffee Shop", "", "", "12.50", "8.00"]]]

/-- Two single-row files with equal dates: the counter continues across the
file boundary. -/
def c3Files : List (List (List String)) :=
  [[["x", "02/03/2021", "a", "", "", "1.00", "2.00"]],
   [["x", "02/03/2021", "b", "", "", "3.00", "4.00"]]]

/-- The transactions produced by `c3Files`. -/
def c3Ts : List transaction :=
  [⟨"2021030201", ⟨2021, 3, 2⟩, "a", "1.00", "", ""⟩,
   ⟨"2021030202", ⟨2021, 3, 2⟩, "b", "3.00", "", ""⟩]

/-- A run with dates A, B, A: date A reappears after another date, so the
counter resets to 1 again and the first and third ids collide. -/
def c7CexFiles : List (List (List String)) :=
  [[["x", "01/01/2020", "d1", "", "", "5.00", "6.00"],
    ["x", "02/01/2020", "d2", "", "", "5.00", "6.00"],
    ["x", "01/01/2020", "d3", "", "", "5.00", "6.00"]]]

/-- The transactions produced by `c7CexFiles`. -/
def c7CexTs : List transaction :=
  [⟨"2020010101", ⟨2020, 1, 1⟩, "d1", "5.00", "", ""⟩,
   ⟨"2020010201", ⟨2020, 1, 2⟩, "d2", "5.00", "", ""⟩,
   ⟨"2020010101", ⟨2020, 1, 1⟩, "d3", "5.00", "", ""⟩]

/-- A run whose equal dates are contiguous. -/
def c7WFiles : List (List (List String)) :=
  [[["x", "05/03/2021", "a", "", "", "1.00", "2.00"],
    ["x", "05/03/2021", "b", "", "", "3.00", "4.00"],
    ["x", "06/03/2021", "c", "", "", "5.00", "6.00"]]]

/-- The transactions produced by `c7WFiles`. -/
def c7WTs : List transaction :=
  [⟨"2021030501", ⟨2021, 3, 5⟩, "a", "1.00", "", ""⟩,
   ⟨"2021030502", ⟨2021, 3, 5⟩, "b", "3.00", "", ""⟩,
   ⟨"2021030601", ⟨2021, 3, 6⟩, "c", "5.00", "", ""⟩]

/-- A credit-layout file: header marker plus one credit data row. -/
def c10File1 : List (List String) :=
  [["Masked Card Number", " Posted Transactions Date", "h"],
   ["c", "05/03/2021", "coffee", " 12.50 ", "3.00", "", ""]]

/-- A headerless data row appearing at the start of the next file. -/
def c10Row : List String := ["d", "06/03/2021", "tea", "x", "y", "7.00", "8.00"]

/-- The transaction of `c10File1` (credit layout: value from field 3). -/
def c10T1 : transaction := ⟨"2021030501", ⟨2021, 3, 5⟩, "coffee", "12.50", "", ""⟩

/-- The transaction of `c10Row` (debit layout: value from field 5, even
though the previous file was in credit mode). -/
def c10T2 : transaction := ⟨"2021030601", ⟨2021, 3, 6⟩, "tea", "7.00", "", ""⟩

/-! Decimal digit lemmas relating `Nat.repr` (used by `padNum`) to the
reference expansion `digitsSpec`. -/

theorem toDigitsCore_eq (fuel n : Nat) (acc : List Char) (h : n < fuel) :
    Nat.toDigitsCore 10 fuel n acc = digitsSpec n ++ acc := by
  induction fuel generalizing n acc with
  | zero => omega
  | succ f ih =>
    show (if n / 10 = 0 then Nat.digitChar (n % 10) :: acc
          else Nat.toDigitsCore 10 f (n / 10) (Nat.digitChar (n % 10) :: acc)) = _
    by_cases h10 : n / 10 = 0
    · have hn : n < 10 := by omega
      rw [if_pos h10, digitsSpec, if_pos hn, Nat.mod_eq_of_lt hn]
      rfl
    · have hn : ¬ n < 10 := by omega
      rw [if_neg h10, ih (n / 10) _ (by omega)]
      conv_rhs => rw [digitsSpec, if_neg hn]
      rw [List.append_assoc]
      rfl

theorem repr_data (n : Nat) : (Nat.repr n).data = digitsSpec n := by
  show (Nat.toDigits 10 n).asString.data = _
  rw [Nat.toDigits, toDigitsCore_eq (n + 1) n [] (by omega), List.append_nil]
  rfl

theorem decDigits_append (a : Nat) (l1 l2 : List Char) :
    decDigits a (l1 ++ l2) = decDigits (decDigits a l1) l2 :=
  List.foldl_append _ _ _ _

theorem digitChar_toNat (n : Nat) (h : n < 10) : (Nat.digitChar n).toNat = 48 + n := by
  interval_cases n <;> rfl

theorem digitChar_isDigit (n : Nat) (h : n < 10) : isDigitChar (Nat.digitChar n) = true := by
  interval_cases n <;> rfl

theorem decDigits_digitsSpec (n : Nat) : ∀ a,
    decDigits a (digitsSpec n) = a * 10 ^ (digitsSpec n).length + n := by
  induction n using Nat.strong_induction_on with
  | _ n ih =>
    intro a
    by_cases hn : n < 10
    · rw [digitsSpec, if_pos hn]
      show a * 10 + ((Nat.digitChar n).toNat - 48) = a * 10 ^ 1 + n
      rw [digitChar_toNat n hn]
      omega
    · rw [digitsSpec, if_neg hn, decDigits_append, List.length_append,
        ih (n / 10) (Nat.div_lt_self (by omega) (by omega)) a]
      show (a * 10 ^ (digitsSpec (n / 10)).length + n / 10) * 10 +
          ((Nat.digitChar (n % 10)).toNat - 48) = _
      rw [digitChar_toNat (n % 10) (by omega)]
      have : (10 : Nat) ^ ((digitsSpec (n / 10)).length + 1) =
          10 ^ (digitsSpec (n / 10)).length * 10 := by ring
      simp only [List.length_cons, List.length_nil, this]
      have hmod : n % 10 + 10 * (n / 10) = n := Nat.mod_add_div n 10
      ring_nf
      omega

theorem digitsSpec_digits (n : Nat) : ∀ c ∈ digitsSpec n, isDigitChar c = true := by
  induction n using Nat.strong_induction_on with
  | _ n ih =>
    intro c hc
    by_cases hn : n < 10
    · rw [digitsSpec, if_pos hn, List.mem_singleton] at hc
      rw [hc]
      exact digitChar_isDigit n hn
    · rw [digitsSpec, if_neg hn, List.mem_append, List.mem_singleton] at hc
      rcases hc with hc | hc
      · exact ih (n / 10) (Nat.div_lt_self (by omega) (by omega)) c hc
      · rw [hc]
        exact digitChar_isDigit (n % 10) (by omega)

/-! `padNum` lemmas. -/

theorem padNum_data (w n : Nat) :
    (padNum w n).data = List.replicate (w - (Nat.repr n).length) '0' ++ digitsSpec n := by
  rw [padNum, String.data_append, repr_data]

theorem string_length_data (s : String) : s.length = s.data.length := rfl

theorem padNum_length (w n : Nat) (hw : 0 < w) (h : n < 10 ^ w) :
    (padNum w n).length = w := by
  have hle : (Nat.repr n).length ≤ w := Nat.repr_length n w hw h
  rw [string_length_data, padNum_data, List.length_append, List.length_replicate,
    ← repr_data, ← string_length_data]
  omega

theorem decDigits_replicate_zero (a k : Nat) :
    decDigits a (List.replicate k '0') = a * 10 ^ k := by
  induction k generalizing a with
  | zero => simp [decDigits]
  | succ k ih =>
    rw [List.replicate_succ]
    show decDigits (a * 10 + ('0'.toNat - 48)) (List.replicate k '0') = _
    rw [ih]
    have : '0'.toNat - 48 = 0 := rfl
    rw [this]
    ring

theorem decDigits_padNum (a w n : Nat) (hw : 0 < w) (h : n < 10 ^ w) :
    decDigits a (padNum w n).data = a * 10 ^ w + n := by
  have hle : (Nat.repr n).length ≤ w := Nat.repr_length n w hw h
  rw [padNum_data, decDigits_append, decDigits_replicate_zero,
    decDigits_digitsSpec n, ← repr_data, ← string_length_data, mul_assoc, ← pow_add]
  have h2 : w - (Nat.repr n).length + (Nat.repr n).length = w := by omega
  rw [h2]

theorem padNum_digits (w n : Nat) : ∀ c ∈ (padNum w n).data, isDigitChar c = true := by
  intro c hc
  rw [padNum_data] at hc
  rcases List.mem_append.mp hc with hc | hc
  · rw [List.eq_of_mem_replicate hc]
    rfl
  · exact digitsSpec_digits n c hc

/-! `idFormat` lemmas. -/

theorem idFormat_length (d : GoDate) (c : Nat) (hd : dateOK d) (hc : c ≤ 99) :
    (idFormat d c).length = 10 := by
  obtain ⟨hy, hm1, hm2, hd1, hd2⟩ := hd
  rw [idFormat, String.length_append, String.length_append, String.length_append,
    padNum_length 4 d.year (by omega) (by omega),
    padNum_length 2 d.month (by omega) (by omega),
    padNum_length 2 d.day (by omega) (by omega),
    padNum_length 2 c (by omega) (by omega)]

theorem idFormat_digits (d : GoDate) (c : Nat) :
    ∀ ch ∈ (idFormat d c).data, isDigitChar ch = true := by
  intro ch hch
  rw [idFormat, String.data_append, String.data_append, String.data_append] at hch
  rcases List.mem_append.mp hch with h | h
  · rcases List.mem_append.mp h with h | h
    · rcases List.mem_append.mp h with h | h
      · exact padNum_digits 4 d.year ch h
      · exact padNum_digits 2 d.month ch h
    · exact padNum_digits 2 d.day ch h
  · exact padNum_digits 2 c ch h

theorem decDigits_idFormat (d : GoDate) (c : Nat) (hd : dateOK d) (hc : c ≤ 99) :
    decDigits 0 (idFormat d c).data = idValue d c := by
  obtain ⟨hy, hm1, hm2, hd1, hd2⟩ := hd
  rw [idFormat, String.data_append, String.data_append, String.data_append,
    decDigits_append, decDigits_append, decDigits_append,
    decDigits_padNum 0 4 d.year (by omega) (by omega),
    decDigits_padNum _ 2 d.month (by omega) (by omega),
    decDigits_padNum _ 2 d.day (by omega) (by omega),
    decDigits_padNum _ 2 c (by omega) (by omega), idValue]
  ring

/-! Classifier lemmas. -/

theorem getLast?_cons_elim {α : Type} (a : α) (l : List α) :
    (a :: l).getLast? = (l.getLast?).elim (some a) some := by
  induction l generalizing a with
  | nil => rfl
  | cons b t ih =>
    rw [List.getLast?_cons_cons, ih b]
    cases h : t.getLast? <;> simp [ih, h]

theorem foldl_classify (m : String → String → Bool) (desc : String)
    (rules : List accountFromDescription) : ∀ (a : String × Bool),
    rules.foldl (fun acc r => if m r.Regex desc then (r.Account, true) else acc) a =
      ((rules.filter (fun r => m r.Regex desc)).getLast?).elim a
        (fun r => (r.Account, true)) := by
  induction rules with
  | nil => intro a; rfl
  | cons r rs ih =>
    intro a
    rw [List.foldl_cons, List.filter_cons]
    by_cases h : m r.Regex desc
    · rw [if_pos h, if_pos h, ih, getLast?_cons_elim]
      cases hl : (rs.filter (fun r => m r.Regex desc)).getLast? <;> simp [hl]
    · rw [if_neg h, if_neg h, ih]

theorem classifyFold_eq (m : String → String → Bool)
    (rules : List accountFromDescription) (desc : String) :
    classifyFold m rules desc =
      ((rules.filter (fun r => m r.Regex desc)).getLast?).elim ("", false)
        (fun r => (r.Account, true)) :=
  foldl_classify m desc rules ("", false)

theorem classifyFold_no_match (m : String → String → Bool)
    (rules : List accountFromDescription) (desc : String)
    (h : ∀ r ∈ rules, m r.Regex desc = false) :
    classifyFold m rules desc = ("", false) := by
  rw [classifyFold_eq]
  have : rules.filter (fun r => m r.Regex desc) = [] := by
    rw [List.filter_eq_nil_iff]
    intro r hr
    rw [h r hr]
    exact Bool.false_ne_true
  rw [this]
  rfl

/-! Value selection lemmas. -/

theorem valueParse_eq (line : List String) (iscredit : Bool) (h : 7 ≤ line.length) :
    valueParse line iscredit = some (
      if trimSpace (line.getD (if iscredit then 3 else 5) "") = "0.00" ∨
         trimSpace (line.getD (if iscredit then 3 else 5) "") = "" then
        "-" ++ trimSpace (line.getD (if iscredit then 4 else 6) "")
      else trimSpace (line.getD (if iscredit then 3 else 5) "")) := by
  rcases line with _ | ⟨f0, line⟩; · simp at h
  rcases line with _ | ⟨f1, line⟩; · simp at h
  rcases line with _ | ⟨f2, line⟩; · simp at h
  rcases line with _ | ⟨f3, line⟩; · simp at h
  rcases line with _ | ⟨f4, line⟩; · simp at h
  rcases line with _ | ⟨f5, line⟩; · simp at h
  rcases line with _ | ⟨f6, line⟩; · simp at h
  cases iscredit <;>
    simp only [valueParse, List.getD, List.get?, if_true, if_false,
      Bool.false_eq_true, ite_false, ite_true, Option.getD_some] <;>
    rw [apply_ite some]

theorem valueParse_nonempty (line : List String) (iscredit : Bool) (h : 7 ≤ line.length) :
    ∃ v, valueParse line iscredit = some v ∧ v ≠ "" := by
  rw [valueParse_eq line iscredit h]
  by_cases hc : trimSpace (line.getD (if iscredit then 3 else 5) "") = "0.00" ∨
      trimSpace (line.getD (if iscredit then 3 else 5) "") = ""
  · refine ⟨_, by rw [if_pos hc], ?_⟩
    intro he
    have : ("-" ++ trimSpace (line.getD (if iscredit then 4 else 6) "")).data =
        ("" : String).data := by rw [he]
    rw [String.data_append] at this
    simp at this
  · refine ⟨_, by rw [if_neg hc], ?_⟩
    intro he
    exact hc (Or.inr he)

/-! Emitter lemmas. -/

theorem addTransaction_eq (t : transaction) (hv : t.Value ≠ "") :
    addTransaction t = some (
      if t.Account = "" then
        [[t.ID, dateFormat t.Date, t.Description, t.Value, t.SrcAccount]]
      else
        [[t.ID, dateFormat t.Date, t.Description, t.Value, t.SrcAccount],
         ["", "", "",
          (if t.Value.data.head? = some '-' then String.mk t.Value.data.tail
           else "-" ++ t.Value), t.Account]]) := by
  rcases hd : t.Value.data with _ | ⟨c, cs⟩
  · exact absurd (String.ext (hd.trans rfl)) hv
  · by_cases ha : t.Account = ""
    · rw [addTransaction, if_neg (by simp [ha]), if_pos ha]
    · rw [addTransaction, if_pos ha, invertValue, hd, if_neg ha]
      simp only [hd, List.head?_cons, List.tail_cons, Option.some.injEq]

/-! Parser inversion lemmas. -/

theorem digitVal_le (c : Char) (h : isDigitChar c = true) : digitVal c ≤ 9 := by
  unfold isDigitChar at h
  rw [Bool.and_eq_true, decide_eq_true_eq, decide_eq_true_eq] at h
  unfold digitVal
  omega

theorem daysInMonth_le (y m : Nat) : daysInMonth y m ≤ 31 := by
  unfold daysInMonth
  repeat' split
  all_goals omega

theorem ymdParse_bounds (s : String) (d : GoDate) (h : ymdParse s = some d) :
    dateOK d := by
  unfold ymdParse at h
  rcases hs : s.data with _ | ⟨a1, l⟩ <;> rw [hs] at h
  case nil => exact Option.noConfusion h
  rcases l with _ | ⟨a2, l⟩; · exact Option.noConfusion h
  rcases l with _ | ⟨s1, l⟩; · exact Option.noConfusion h
  rcases l with _ | ⟨b1, l⟩; · exact Option.noConfusion h
  rcases l with _ | ⟨b2, l⟩; · exact Option.noConfusion h
  rcases l with _ | ⟨s2, l⟩; · exact Option.noConfusion h
  rcases l with _ | ⟨c1, l⟩; · exact Option.noConfusion h
  rcases l with _ | ⟨c2, l⟩; · exact Option.noConfusion h
  rcases l with _ | ⟨c3, l⟩; · exact Option.noConfusion h
  rcases l with _ | ⟨c4, l⟩; · exact Option.noConfusion h
  rcases l with _ | ⟨c5, l⟩
  case cons.cons =>
    exact Option.noConfusion h
  simp only [] at h
  split at h
  · rename_i hguard
    obtain ⟨hs1, hs2, hg1, hg2, hg3, hg4, hg5, hg6, hg7, hg8⟩ := hguard
    split at h
    · rename_i hrange
      obtain ⟨hr1, hr2, hr3, hr4⟩ := hrange
      rw [Option.some.injEq] at h
      subst h
      have e1 := digitVal_le a1 hg1
      have e2 := digitVal_le a2 hg2
      have e3 := digitVal_le b1 hg3
      have e4 := digitVal_le b2 hg4
      have e5 := digitVal_le c1 hg5
      have e6 := digitVal_le c2 hg6
      have e7 := digitVal_le c3 hg7
      have e8 := digitVal_le c4 hg8
      have hdm := daysInMonth_le (((digitVal c1 * 10 + digitVal c2) * 10 + digitVal c3) * 10 +
        digitVal c4) (digitVal b1 * 10 + digitVal b2)
      exact ⟨by simp only []; omega, by simp only []; omega, by simp only []; omega,
        by simp only []; omega, by simp only []; omega⟩
    · exact Option.noConfusion h
  · exact Option.noConfusion h

theorem lineParse_some (line : List String) (ic : Bool) (st : ParseState)
    (t : transaction) (st1 : ParseState)
    (h : lineParse line ic st = some (t, st1)) :
    (∃ dateStr, line.get? 1 = some dateStr ∧ ymdParse dateStr = some t.Date) ∧
    t.ID = idFormat t.Date (if some t.Date ≠ st.lastdate then 1 else st.counter) ∧
    st1 = ⟨some t.Date, if some t.Date ≠ st.lastdate then 1 else st.counter⟩ := by
  unfold lineParse at h
  cases hg1 : line.get? 1 with
  | none => rw [hg1] at h; exact Option.noConfusion h
  | some dateStr =>
    simp only [hg1] at h
    cases hg2 : ymdParse dateStr with
    | none => rw [hg2] at h; exact Option.noConfusion h
    | some date =>
      simp only [hg2] at h
      cases hg3 : line.get? 2 with
      | none => rw [hg3] at h; exact Option.noConfusion h
      | some desc =>
        simp only [hg3] at h
        cases hg4 : valueParse line ic with
        | none => rw [hg4] at h; exact Option.noConfusion h
        | some value =>
          simp only [hg4, Option.some.injEq, Prod.mk.injEq] at h
          obtain ⟨h1, h2⟩ := h
          subst h1
          subst h2
          exact ⟨⟨dateStr, rfl, hg2⟩, rfl, rfl⟩

theorem rowStep_some (line : List String) (ic : Bool) (st : ParseState)
    (ic1 : Bool) (st1 : ParseState) (tOpt : Option transaction)
    (h : rowStep line ic st = some (ic1, st1, tOpt)) :
    (tOpt = none ∧ st1 = st) ∨
    (∃ t st2, tOpt = some t ∧ ic1 = ic ∧ lineParse line ic st = some (t, st2) ∧
      st1 = ⟨st2.lastdate, st2.counter + 1⟩) := by
  unfold rowStep at h
  cases hg1 : line.get? 1 with
  | none => rw [hg1] at h; exact Option.noConfusion h
  | some f1 =>
    simp only [hg1] at h
    by_cases hf1 : f1 = " Posted Transactions Date"
    · rw [if_pos hf1] at h
      cases hg0 : line.get? 0 with
      | none => rw [hg0] at h; exact Option.noConfusion h
      | some f0 =>
        simp only [hg0] at h
        by_cases hm : f0 = "Masked Card Number"
        · rw [if_pos hm, Option.some.injEq, Prod.mk.injEq, Prod.mk.injEq] at h
          exact Or.inl ⟨h.2.2.symm, h.2.1.symm⟩
        · rw [if_neg hm] at h
          by_cases hp : f0 = "Posted Account"
          · rw [if_pos hp, Option.some.injEq, Prod.mk.injEq, Prod.mk.injEq] at h
            exact Or.inl ⟨h.2.2.symm, h.2.1.symm⟩
          · rw [if_neg hp] at h
            exact Option.noConfusion h
    · rw [if_neg hf1] at h
      cases hlp : lineParse line ic st with
      | none => rw [hlp] at h; exact Option.noConfusion h
      | some p =>
        obtain ⟨t, st2⟩ := p
        simp only [hlp, Option.some.injEq, Prod.mk.injEq] at h
        exact Or.inr ⟨t, st2, h.2.2.symm, h.1.symm, rfl, h.2.1.symm⟩

/-! Correspondence between the threaded parser state and the
specification-side counter stream. -/

theorem counterSpec_length (last : Option GoDate) (c : Nat) (l : List GoDate) :
    (counterSpec last c l).length = l.length := by
  induction l generalizing last c with
  | nil => rfl
  | cons d ds ih => simp [counterSpec, ih]

theorem counterSpec_append (l1 : List GoDate) : ∀ (last : Option GoDate) (c : Nat)
    (l2 : List GoDate),
    counterSpec last c (l1 ++ l2) =
      counterSpec last c l1 ++
        counterSpec (specFinal last c l1).1 (specFinal last c l1).2 l2 := by
  induction l1 with
  | nil => intro last c l2; rfl
  | cons d ds ih =>
    intro last c l2
    simp only [List.cons_append, counterSpec, specFinal, List.cons.injEq, true_and]
    exact ih _ _ l2

theorem specFinal_append (l1 : List GoDate) : ∀ (last : Option GoDate) (c : Nat)
    (l2 : List GoDate),
    specFinal last c (l1 ++ l2) =
      specFinal (specFinal last c l1).1 (specFinal last c l1).2 l2 := by
  induction l1 with
  | nil => intro last c l2; rfl
  | cons d ds ih =>
    intro last c l2
    simp only [List.cons_append, specFinal]
    exact ih _ _ l2

theorem rowsParse_spec (lines : List (List String)) : ∀ (ic : Bool) (st : ParseState)
    (ic2 : Bool) (st2 : ParseState) (ts : List transaction),
    rowsParse lines ic st = some (ic2, st2, ts) →
    List.map transaction.ID ts =
      List.zipWith idFormat (List.map transaction.Date ts)
        (counterSpec st.lastdate st.counter (List.map transaction.Date ts)) ∧
    (st2.lastdate, st2.counter) =
      specFinal st.lastdate st.counter (List.map transaction.Date ts) := by
  induction lines with
  | nil =>
    intro ic st ic2 st2 ts h
    unfold rowsParse at h
    rw [Option.some.injEq, Prod.mk.injEq, Prod.mk.injEq] at h
    rw [← h.2.2, ← h.2.1]
    exact ⟨rfl, rfl⟩
  | cons l ls ih =>
    intro ic st ic2 st2 ts h
    unfold rowsParse at h
    cases hstep : rowStep l ic st with
    | none => rw [hstep] at h; exact Option.noConfusion h
    | some p =>
      obtain ⟨ic1, st1, tOpt⟩ := p
      simp only [hstep] at h
      cases hrec : rowsParse ls ic1 st1 with
      | none => rw [hrec] at h; exact Option.noConfusion h
      | some q =>
        obtain ⟨ic2b, st2b, ts1⟩ := q
        simp only [hrec, Option.some.injEq, Prod.mk.injEq] at h
        obtain ⟨hic, hst, hts⟩ := h
        rcases rowStep_some l ic st ic1 st1 tOpt hstep with ⟨hnone, hst1⟩ | hdata
        · subst hnone
          subst hst1
          simp only [Option.elim] at hts
          rw [← hts, ← hst]
          exact ih ic1 _ ic2b st2b ts1 hrec
        · obtain ⟨t, stp, hsome, hic1, hlp, hst1⟩ := hdata
          subst hsome
          obtain ⟨hdate, hid, hstp⟩ := lineParse_some l ic st t stp hlp
          have hrec2 := ih ic1 st1 ic2b st2b ts1 hrec
          simp only [Option.elim] at hts
          rw [← hts, ← hst]
          subst hstp
          subst hst1
          simp only [List.map_cons, counterSpec, specFinal, List.zipWith_cons_cons]
          constructor
          · rw [List.cons.injEq]
            exact ⟨hid, hrec2.1⟩
          · exact hrec2.2

theorem filesParse_spec (files : List (List (List String))) : ∀ (st : ParseState)
    (st2 : ParseState) (ts : List transaction),
    filesParse files st = some (st2, ts) →
    List.map transaction.ID ts =
      List.zipWith idFormat (List.map transaction.Date ts)
        (counterSpec st.lastdate st.counter (List.map transaction.Date ts)) ∧
    (st2.lastdate, st2.counter) =
      specFinal st.lastdate st.counter (List.map transaction.Date ts) := by
  induction files with
  | nil =>
    intro st st2 ts h
    unfold filesParse at h
    rw [Option.some.injEq, Prod.mk.injEq] at h
    rw [← h.2, ← h.1]
    exact ⟨rfl, rfl⟩
  | cons f fs ih =>
    intro st st2 ts h
    unfold filesParse at h
    cases hrows : rowsParse f false st with
    | none => rw [hrows] at h; exact Option.noConfusion h
    | some p =>
      obtain ⟨icx, st1, ts1⟩ := p
      simp only [hrows] at h
      cases hrec : filesParse fs st1 with
      | none => rw [hrec] at h; exact Option.noConfusion h
      | some q =>
        obtain ⟨st2b, ts2⟩ := q
        simp only [hrec, Option.some.injEq, Prod.mk.injEq] at h
        obtain ⟨hst, hts⟩ := h
        have h1 := rowsParse_spec f false st icx st1 ts1 hrows
        have h2 := ih st1 st2b ts2 hrec
        rw [← hts, ← hst]
        rw [List.map_append, List.map_append]
        have hlen : (List.map transaction.Date ts1).length =
            (counterSpec st.lastdate st.counter (List.map transaction.Date ts1)).length :=
          (counterSpec_length _ _ _).symm
        have e1 : st1.lastdate =
            (specFinal st.lastdate st.counter (List.map transaction.Date ts1)).1 :=
          congrArg Prod.fst h1.2
        have e2 : st1.counter =
            (specFinal st.lastdate st.counter (List.map transaction.Date ts1)).2 :=
          congrArg Prod.snd h1.2
        constructor
        · rw [counterSpec_append, List.zipWith_append _ _ _ _ _ hlen, h1.1, h2.1, e1, e2]
        · rw [specFinal_append, h2.2, e1, e2]

/-! Composition lemmas for the row and file loops. -/

theorem rowsParse_append (l1 : List (List String)) : ∀ (l2 : List (List String)) (ic : Bool)
    (st : ParseState),
    rowsParse (l1 ++ l2) ic st =
      match rowsParse l1 ic st with
      | none => none
      | some (ic1, st1, ts1) =>
        match rowsParse l2 ic1 st1 with
        | none => none
        | some (ic2, st2, ts2) => some (ic2, st2, ts1 ++ ts2) := by
  induction l1 with
  | nil =>
    intro l2 ic st
    simp only [List.nil_append, rowsParse]
    cases h : rowsParse l2 ic st with
    | none => rfl
    | some q =>
      obtain ⟨a, b, c⟩ := q
      dsimp only []
  | cons l ls ih =>
    intro l2 ic st
    simp only [List.cons_append, rowsParse]
    cases hstep : rowStep l ic st with
    | none => rfl
    | some p =>
      obtain ⟨ic1, st1, tOpt⟩ := p
      dsimp only []
      simp only [List.append_eq]
      rw [ih l2 ic1 st1]
      cases h1 : rowsParse ls ic1 st1 with
      | none => rfl
      | some q =>
        obtain ⟨ic2, st2, ts1⟩ := q
        dsimp only []
        cases h2 : rowsParse l2 ic2 st2 with
        | none => rfl
        | some r =>
          obtain ⟨ic3, st3, ts2⟩ := r
          dsimp only []
          cases tOpt with
          | none => rfl
          | some t => simp only [Option.elim, List.cons_append]

theorem filesParse_append (fs1 : List (List (List String))) :
    ∀ (fs2 : List (List (List String))) (st : ParseState),
    filesParse (fs1 ++ fs2) st =
      match filesParse fs1 st with
      | none => none
      | some (st1, ts1) =>
        match filesParse fs2 st1 with
        | none => none
        | some (st2, ts2) => some (st2, ts1 ++ ts2) := by
  induction fs1 with
  | nil =>
    intro fs2 st
    simp only [List.nil_append, filesParse]
    cases h : filesParse fs2 st with
    | none => rfl
    | some q =>
      obtain ⟨a, b⟩ := q
      dsimp only []
  | cons f fs ih =>
    intro fs2 st
    simp only [List.cons_append, filesParse]
    cases hrows : rowsParse f false st with
    | none => rfl
    | some p =>
      obtain ⟨icx, st1, ts1⟩ := p
      dsimp only []
      simp only [List.append_eq]
      rw [ih fs2 st1]
      cases h1 : filesParse fs st1 with
      | none => rfl
      | some q =>
        obtain ⟨st2, ts2⟩ := q
        dsimp only []
        cases h2 : filesParse fs2 st2 with
        | none => rfl
        | some r =>
          obtain ⟨st3, ts3⟩ := r
          dsimp only []
          rw [List.append_assoc]

/-- A row that is not a header marker leaves the sub-format flag unchanged. -/
theorem rowStep_data_ic (line : List String) (ic : Bool) (st : ParseState)
    (ic1 : Bool) (st1 : ParseState) (tOpt : Option transaction)
    (hnh : ¬ line.get? 1 = some " Posted Transactions Date")
    (h : rowStep line ic st = some (ic1, st1, tOpt)) : ic1 = ic := by
  unfold rowStep at h
  cases hg1 : line.get? 1 with
  | none => rw [hg1] at h; exact Option.noConfusion h
  | some f1 =>
    simp only [hg1] at h
    have hf1 : ¬ f1 = " Posted Transactions Date" := fun he => hnh (by rw [hg1, he])
    rw [if_neg hf1] at h
    cases hlp : lineParse line ic st with
    | none => rw [hlp] at h; exact Option.noConfusion h
    | some p =>
      obtain ⟨t, st2⟩ := p
      simp only [hlp, Option.some.injEq, Prod.mk.injEq] at h
      exact h.1.symm

/-- A block of rows without any header marker leaves the sub-format flag
unchanged. -/
theorem rowsParse_no_header_ic (pre : List (List String)) : ∀ (ic : Bool) (st : ParseState)
    (res : Bool × ParseState × List transaction),
    (∀ l ∈ pre, ¬ l.get? 1 = some " Posted Transactions Date") →
    rowsParse pre ic st = some res → res.1 = ic := by
  induction pre with
  | nil =>
    intro ic st res hpre h
    unfold rowsParse at h
    rw [Option.some.injEq] at h
    rw [← h]
  | cons l ls ih =>
    intro ic st res hpre h
    unfold rowsParse at h
    cases hstep : rowStep l ic st with
    | none => rw [hstep] at h; exact Option.noConfusion h
    | some p =>
      obtain ⟨ic1, st1, tOpt⟩ := p
      simp only [hstep] at h
      cases hrec : rowsParse ls ic1 st1 with
      | none => rw [hrec] at h; exact Option.noConfusion h
      | some q =>
        obtain ⟨ic2, st2, ts1⟩ := q
        simp only [hrec, Option.some.injEq] at h
        have e1 : ic1 = ic := rowStep_data_ic l ic st ic1 st1 tOpt
          (hpre l (List.mem_cons_self l ls)) hstep
        have e2 : ic2 = ic1 := ih ic1 st1 (ic2, st2, ts1)
          (fun x hx => hpre x (List.mem_cons_of_mem l hx)) hrec
        rw [← h]
        show ic2 = ic
        rw [e2, e1]

/-! Date bounds propagate through the pipeline. -/

theorem rowsParse_dates (lines : List (List String)) : ∀ (ic : Bool) (st : ParseState)
    (res : Bool × ParseState × List transaction),
    rowsParse lines ic st = some res → ∀ t ∈ res.2.2, dateOK t.Date := by
  induction lines with
  | nil =>
    intro ic st res h t ht
    unfold rowsParse at h
    rw [Option.some.injEq] at h
    rw [← h] at ht
    cases ht
  | cons l ls ih =>
    intro ic st res h t ht
    unfold rowsParse at h
    cases hstep : rowStep l ic st with
    | none => rw [hstep] at h; exact Option.noConfusion h
    | some p =>
      obtain ⟨ic1, st1, tOpt⟩ := p
      simp only [hstep] at h
      cases hrec : rowsParse ls ic1 st1 with
      | none => rw [hrec] at h; exact Option.noConfusion h
      | some q =>
        obtain ⟨ic2, st2, ts1⟩ := q
        simp only [hrec, Option.some.injEq] at h
        rw [← h] at ht
        rcases rowStep_some l ic st ic1 st1 tOpt hstep with ⟨hnone, _⟩ | hdata
        · subst hnone
          simp only [Option.elim] at ht
          exact ih ic1 st1 (ic2, st2, ts1) hrec t ht
        · obtain ⟨tx, stp, hsome, _, hlp, _⟩ := hdata
          subst hsome
          simp only [Option.elim] at ht
          rcases List.mem_cons.mp ht with he | hm
          · subst he
            obtain ⟨⟨dateStr, _, hymd⟩, _, _⟩ := lineParse_some l ic st t stp hlp
            exact ymdParse_bounds dateStr t.Date hymd
          · exact ih ic1 st1 (ic2, st2, ts1) hrec t hm

theorem filesParse_dates (files : List (List (List String))) : ∀ (st : ParseState)
    (res : ParseState × List transaction),
    filesParse files st = some res → ∀ t ∈ res.2, dateOK t.Date := by
  induction files with
  | nil =>
    intro st res h t ht
    unfold filesParse at h
    rw [Option.some.injEq] at h
    rw [← h] at ht
    cases ht
  | cons f fs ih =>
    intro st res h t ht
    unfold filesParse at h
    cases hrows : rowsParse f false st with
    | none => rw [hrows] at h; exact Option.noConfusion h
    | some p =>
      obtain ⟨icx, st1, ts1⟩ := p
      simp only [hrows] at h
      cases hrec : filesParse fs st1 with
      | none => rw [hrec] at h; exact Option.noConfusion h
      | some q =>
        obtain ⟨st2, ts2⟩ := q
        simp only [hrec, Option.some.injEq] at h
        rw [← h] at ht
        rcases List.mem_append.mp ht with hm | hm
        · exact rowsParse_dates f false st (icx, st1, ts1) hrows t hm
        · exact ih st1 (st2, ts2) hrec t hm

/-! Counter bounds. -/

theorem count_cons_eq (d e : GoDate) (ds : List GoDate) :
    (d :: ds).count e = ds.count e + (if d = e then 1 else 0) := by
  rw [List.count_cons]
  by_cases hde : d = e <;> simp [hde]

theorem counterSpec_le (l : List GoDate) : ∀ (last : Option GoDate) (c0 : Nat),
    (∀ d : GoDate, l.count d + (if last = some d then c0 - 1 else 0) ≤ 99) →
    ∀ c ∈ counterSpec last c0 l, c ≤ 99 := by
  induction l with
  | nil =>
    intro last c0 _ c hc
    simp [counterSpec] at hc
  | cons d ds ih =>
    intro last c0 h c hc
    simp only [counterSpec] at hc
    by_cases hne : some d ≠ last
    · rw [if_pos hne] at hc
      rcases List.mem_cons.mp hc with hc | hc
      · subst hc; omega
      · refine ih (some d) 2 ?_ c hc
        intro e
        have he := h e
        have hb : (d :: ds).count e ≤ 99 := le_trans (Nat.le_add_right _ _) he
        have hcc := count_cons_eq d e ds
        by_cases hed : some d = some e
        · have hde : d = e := Option.some.inj hed
          rw [if_pos hed]
          rw [if_pos hde] at hcc
          omega
        · rw [if_neg hed]
          rw [if_neg (fun hcon => hed (by rw [hcon]))] at hcc
          omega
    · rw [if_neg hne] at hc
      rw [not_not] at hne
      rcases List.mem_cons.mp hc with hc | hc
      · subst hc
        have hd := h d
        rw [← hne, if_pos rfl] at hd
        have hcc := count_cons_eq d d ds
        rw [if_pos rfl] at hcc
        omega
      · refine ih (some d) (c0 + 1) ?_ c hc
        intro e
        have he := h e
        have hcc := count_cons_eq d e ds
        by_cases hed : d = e
        · subst hed
          rw [← hne, if_pos rfl] at he
          rw [if_pos rfl] at hcc
          rw [if_pos rfl]
          omega
        · rw [if_neg (fun hcon => hed (Option.some.inj hcon))]
          rw [if_neg hed] at hcc
          have hb : (d :: ds).count e ≤ 99 := le_trans (Nat.le_add_right _ _) he
          omega

/-! Positions where the counter restarts at 1. -/

theorem counterSpec_get?_zero (l : List GoDate) (c : Nat) (d : GoDate)
    (h : l.get? 0 = some d) : (counterSpec none c l).get? 0 = some 1 := by
  cases l with
  | nil => exact Option.noConfusion h
  | cons e es =>
    simp only [counterSpec]
    rw [if_pos (by simp)]
    rfl

theorem counterSpec_get?_succ (l : List GoDate) : ∀ (last : Option GoDate) (c : Nat)
    (i : Nat) (di dj : GoDate),
    l.get? i = some di → l.get? (i + 1) = some dj → dj ≠ di →
    (counterSpec last c l).get? (i + 1) = some 1 := by
  induction l with
  | nil =>
    intro last c i di dj h1 _ _
    exact Option.noConfusion h1
  | cons e es ih =>
    intro last c i di dj h1 h2 hne
    cases i with
    | zero =>
      have he : e = di := by simpa using h1
      subst he
      cases es with
      | nil => exact Option.noConfusion h2
      | cons f fs =>
        have hf : f = dj := by simpa using h2
        subst hf
        show (counterSpec (some e) ((if some e ≠ last then 1 else c) + 1) (f :: fs)).get? 0 =
          some 1
        simp only [counterSpec]
        rw [if_pos (fun hcon => hne (Option.some.inj hcon))]
        rfl
    | succ j =>
      show (counterSpec (some e) ((if some e ≠ last then 1 else c) + 1) es).get? (j + 1) =
        some 1
      exact ih (some e) _ j di dj (by simpa using h1) (by simpa using h2) hne

/-! Distinctness of (date, counter) pairs for grouped date streams. -/

theorem counterSpec_run_ge (l : List GoDate) : ∀ (d : GoDate) (c : Nat),
    Grouped l → (d ∈ l → l.head? = some d) →
    ∀ p ∈ l.zip (counterSpec (some d) c l), p.1 = d → c ≤ p.2 := by
  induction l with
  | nil =>
    intro d c _ _ p hp _
    cases hp
  | cons e es ih =>
    intro d c hg hd p hp hpd
    cases hg with
    | cons _ _ hges hcnd =>
      simp only [counterSpec] at hp
      rw [List.zip_cons_cons] at hp
      rcases List.mem_cons.mp hp with hp | hp
      · subst hp
        dsimp only [] at hpd ⊢
        rw [hpd, if_neg (by simp)]
      · by_cases hed : e = d
        · subst hed
          rw [if_neg (by simp)] at hp
          exact Nat.le_of_succ_le (ih e (c + 1) hges hcnd p hp hpd)
        · exfalso
          obtain ⟨x, y⟩ := p
          have hx : x ∈ es := (List.of_mem_zip hp).1
          dsimp only [] at hpd
          subst hpd
          have hmem : x ∈ e :: es := List.mem_cons_of_mem e hx
          have hh := hd hmem
          rw [List.head?_cons] at hh
          injection hh with hh
          exact hed hh

theorem counterSpec_pairs_nodup (l : List GoDate) : ∀ (last : Option GoDate) (c : Nat),
    Grouped l → (l.zip (counterSpec last c l)).Nodup := by
  induction l with
  | nil =>
    intro last c _
    simp
  | cons e es ih =>
    intro last c hg
    cases hg with
    | cons _ _ hges hcnd =>
      simp only [counterSpec]
      rw [List.zip_cons_cons, List.nodup_cons]
      refine ⟨?_, ih (some e) _ hges⟩
      intro hmem
      have hge := counterSpec_run_ge es e ((if some e ≠ last then 1 else c) + 1) hges hcnd
        (e, if some e ≠ last then 1 else c) hmem rfl
      omega

/-! Zip helpers. -/

theorem zipWith_eq_map_zip {α β γ : Type} (f : α → β → γ) (l1 : List α) :
    ∀ l2 : List β, List.zipWith f l1 l2 = (l1.zip l2).map (fun p => f p.1 p.2) := by
  induction l1 with
  | nil => intro l2; rfl
  | cons a l ih =>
    intro l2
    cases l2 with
    | nil => rfl
    | cons b m => simp [ih]

theorem zipWith_congr_mem {α β γ : Type} (f g : α → β → γ) (l1 : List α) :
    ∀ l2 : List β, (∀ a ∈ l1, ∀ b ∈ l2, f a b = g a b) →
    List.zipWith f l1 l2 = List.zipWith g l1 l2 := by
  induction l1 with
  | nil => intro l2 _; rfl
  | cons a l ih =>
    intro l2 h
    cases l2 with
    | nil => rfl
    | cons b m =>
      simp only [List.zipWith_cons_cons]
      rw [h a (List.mem_cons_self a l) b (List.mem_cons_self b m)]
      rw [ih m (fun x hx y hy => h x (List.mem_cons_of_mem a hx) y (List.mem_cons_of_mem b hy))]

/-! Whole-run helpers. -/

theorem inputsParse_spec (files : List (List (List String))) (ts : List transaction)
    (h : inputsParse files = some ts) :
    List.map transaction.ID ts =
      List.zipWith idFormat (List.map transaction.Date ts)
        (counterSpec none 1 (List.map transaction.Date ts)) := by
  unfold inputsParse at h
  cases hf : filesParse files ⟨none, 1⟩ with
  | none => rw [hf] at h; exact Option.noConfusion h
  | some p =>
    obtain ⟨st2, ts2⟩ := p
    simp only [hf, Option.some.injEq] at h
    subst h
    exact (filesParse_spec files ⟨none, 1⟩ st2 ts2 hf).1

theorem inputsParse_dates (files : List (List (List String))) (ts : List transaction)
    (h : inputsParse files = some ts) : ∀ t ∈ ts, dateOK t.Date := by
  unfold inputsParse at h
  cases hf : filesParse files ⟨none, 1⟩ with
  | none => rw [hf] at h; exact Option.noConfusion h
  | some p =>
    obtain ⟨st2, ts2⟩ := p
    simp only [hf, Option.some.injEq] at h
    subst h
    exact filesParse_dates files ⟨none, 1⟩ (st2, ts2) hf

theorem zipWith_get?_eq {α β γ : Type} (f : α → β → γ) (l1 : List α) :
    ∀ (l2 : List β) (i : Nat) (a : α) (b : β),
    l1.get? i = some a → l2.get? i = some b →
    (List.zipWith f l1 l2).get? i = some (f a b) := by
  induction l1 with
  | nil => intro l2 i a b h1 _; exact Option.noConfusion h1
  | cons x l ih =>
    intro l2 i a b h1 h2
    cases l2 with
    | nil => exact Option.noConfusion h2
    | cons y m =>
      cases i with
      | zero =>
        have hx : x = a := by simpa using h1
        have hy : y = b := by simpa using h2
        subst hx
        subst hy
        rfl
      | succ j => exact ih m j a b (by simpa using h1) (by simpa using h2)

theorem processOne_unmatched (m : String → String → Bool)
    (rules : List accountFromDescription) (src : String) (t : transaction)
    (hno : ∀ r ∈ rules, m r.Regex t.Description = false) :
    processOne m rules src t =
      some ([], ["could not assign account to " ++ t.Description]) := by
  unfold processOne
  rw [classifyFold_no_match m rules t.Description hno]
  rfl

/-! Claim theorems. -/

/-- Claim C1, counterexample: in a run whose only transaction matches no
rule, the program records the warning but emits zero CSV records for it —
not the one source-only row the claim asserts. -/
theorem claim1_counterexample :
    processCsvs literalMatch [⟨"Expenses:A", "zz"⟩] "Assets:Bank" c1CexFiles =
      some ([], ["could not assign account to Coffee Shop"]) := by decide

/-- Claim C1, amended: for every transaction whose description matches no
classification rule, the program logs a warning (non-fatal), continues the
run, and emits no CSV row for it — neither a source row nor a destination
row (the transaction is skipped entirely). -/
theorem claim1_amended (m : String → String → Bool) (rules : List accountFromDescription)
    (src : String) (t : transaction)
    (hno : ∀ r ∈ rules, m r.Regex t.Description = false) :
    processOne m rules src t =
      some ([], ["could not assign account to " ++ t.Description]) :=
  processOne_unmatched m rules src t hno

/-- Witness for the amended claim C1 at a concrete unmatched transaction. -/
theorem claim1_amended_witness :
    processOne literalMatch [⟨"Expenses:A", "zz"⟩] "Assets:Bank"
      ⟨"2020020101", ⟨2020, 2, 1⟩, "Coffee Shop", "-8.00", "", ""⟩ =
      some ([], ["could not assign account to Coffee Shop"]) :=
  claim1_amended literalMatch [⟨"Expenses:A", "zz"⟩] "Assets:Bank"
    ⟨"2020020101", ⟨2020, 2, 1⟩, "Coffee Shop", "-8.00", "", ""⟩ (by decide)

/-- Claim C2: the code rejects an invocation with four positional arguments
(two input files) with the usage message and exit code 1, since `main`
demands `flag.NArg() == 3` exactly; the claim (and the usage string
`<inputs...>` itself) says three *or more* are accepted. -/
theorem claim2_wrong_arg_count :
    mainArgs ["Assets:Bank", "rules.json", "january.csv", "february.csv"] =
      MainOutcome.usageExit1 := rfl

/-- Claim C3: across the entire multi-file run the ids embed exactly the
specification counter stream: reset to 1 exactly when the parsed date
differs from the immediately preceding transaction's date (also across file
boundaries, since the stream below spans all files), otherwise incremented
by 1 per transaction. -/
theorem claim3_counter_threading (files : List (List (List String)))
    (ts : List transaction) (h : inputsParse files = some ts) :
    List.map transaction.ID ts =
      List.zipWith idFormat (List.map transaction.Date ts)
        (counterSpec none 1 (List.map transaction.Date ts)) :=
  inputsParse_spec files ts h

/-- Witness for claim C3: two files whose rows share one date; the second
file's transaction continues the counter (id `2021030202`). -/
theorem claim3_witness :
    inputsParse c3Files = some c3Ts ∧
    List.map transaction.ID c3Ts =
      List.zipWith idFormat (List.map transaction.Date c3Ts)
        (counterSpec none 1 (List.map transaction.Date c3Ts)) :=
  ⟨by decide, claim3_counter_threading c3Files c3Ts (by decide)⟩

/-- Claim C4: for every data row with at least 7 fields, the parsed value
is the trimmed primary field (3 for credit, 5 for debit), except that when
that trimmed field is `"0.00"` or empty the value is `-` prepended to the
trimmed fallback field (4 for credit, 6 for debit). -/
theorem claim4_value_selection (line : List String) (iscredit : Bool)
    (h : 7 ≤ line.length) :
    valueParse line iscredit = some (
      if trimSpace (line.getD (if iscredit then 3 else 5) "") = "0.00" ∨
         trimSpace (line.getD (if iscredit then 3 else 5) "") = "" then
        "-" ++ trimSpace (line.getD (if iscredit then 4 else 6) "")
      else trimSpace (line.getD (if iscredit then 3 else 5) "")) :=
  valueParse_eq line iscredit h

/-- Witness for claim C4 at a concrete credit row with a non-empty
field 3. -/
theorem claim4_witness :
    valueParse ["c", "05/03/2021", "coffee", " 12.50 ", "3.00", "", "4.00"] true =
      some "12.50" :=
  (claim4_value_selection ["c", "05/03/2021", "coffee", " 12.50 ", "3.00", "", "4.00"]
    true (by decide)).trans (by decide)

/-- Claim C5: every successful match overwrites the assigned account, so
the final classification is that of the last matching rule in list order
(and `("", false)` when no rule matches); in particular two rules
`A`/`B` with the same pattern classify to `B`. -/
theorem claim5_last_match_wins :
    (∀ (m : String → String → Bool) (rules : List accountFromDescription) (desc : String),
      classifyFold m rules desc =
        ((rules.filter (fun r => m r.Regex desc)).getLast?).elim ("", false)
          (fun r => (r.Account, true))) ∧
    classifyFold literalMatch [⟨"A", "x"⟩, ⟨"B", "x"⟩] "axle" = ("B", true) :=
  ⟨classifyFold_eq, by decide⟩

/-- Claim C6: for every emitted transaction with a non-empty value, a
destination row is written iff the account is non-empty, and that row is
`("", "", "", invertedValue, account)` where the inverted value strips a
leading `-` when present and prepends one otherwise. -/
theorem claim6_destination_row (t : transaction) (hv : t.Value ≠ "") :
    addTransaction t = some (
      if t.Account = "" then
        [[t.ID, dateFormat t.Date, t.Description, t.Value, t.SrcAccount]]
      else
        [[t.ID, dateFormat t.Date, t.Description, t.Value, t.SrcAccount],
         ["", "", "",
          (if t.Value.data.head? = some '-' then String.mk t.Value.data.tail
           else "-" ++ t.Value), t.Account]]) :=
  addTransaction_eq t hv

/-- Witness for claim C6: a classified transaction with value `-8.00`
yields the source row plus a destination row with value `8.00`. -/
theorem claim6_witness :
    addTransaction ⟨"2020020101", ⟨2020, 2, 1⟩, "Coffee Shop", "-8.00",
      "Expenses:Coffee", "Assets:Bank"⟩ =
      some [["2020020101", "2020-02-01", "Coffee Shop", "-8.00", "Assets:Bank"],
            ["", "", "", "8.00", "Expenses:Coffee"]] :=
  (claim6_destination_row
    ⟨"2020020101", ⟨2020, 2, 1⟩, "Coffee Shop", "-8.00", "Expenses:Coffee", "Assets:Bank"⟩
    (by decide)).trans (by decide)

/-- Claim C8: a row whose second field is the literal
`" Posted Transactions Date"` is consumed as a header marker producing no
transaction; its first field selects the sub-format (`Masked Card Number`
→ credit, `Posted Account` → debit), and any other first field is a fatal
error that stops the whole run. -/
theorem claim8_header_marker (line : List String) (ls : List (List String)) (ic : Bool)
    (st : ParseState) (h1 : line.get? 1 = some " Posted Transactions Date") :
    (rowsParse (line :: ls) ic st =
      (if line.get? 0 = some "Masked Card Number" then rowsParse ls true st
       else if line.get? 0 = some "Posted Account" then rowsParse ls false st
       else none)) ∧
    (¬ line.get? 0 = some "Masked Card Number" → ¬ line.get? 0 = some "Posted Account" →
      ∀ (more : List (List (List String))) (st2 : ParseState),
        filesParse ((line :: ls) :: more) st2 = none) := by
  obtain ⟨f0, h0⟩ : ∃ f0, line.get? 0 = some f0 := by
    have hlen : 1 < line.length := by
      rcases List.get?_eq_some.mp h1 with ⟨hl, _⟩
      exact hl
    rw [List.get?_eq_get (by omega)]
    exact ⟨_, rfl⟩
  have h1b := (List.get?_eq_getElem? line 1).symm.trans h1
  have h0b := (List.get?_eq_getElem? line 0).symm.trans h0
  have hcons : ∀ (ic0 : Bool) (st0 : ParseState),
      rowsParse (line :: ls) ic0 st0 =
        match rowStep line ic0 st0 with
        | none => none
        | some (ic1, st1, tOpt) =>
          match rowsParse ls ic1 st1 with
          | none => none
          | some (ic2, st2, ts) => some (ic2, st2, tOpt.elim ts (fun t => t :: ts)) :=
    fun ic0 st0 => rfl
  have hmain : ∀ (ic0 : Bool) (st0 : ParseState),
      rowsParse (line :: ls) ic0 st0 =
        (if line.get? 0 = some "Masked Card Number" then rowsParse ls true st0
         else if line.get? 0 = some "Posted Account" then rowsParse ls false st0
         else none) := by
    intro ic0 st0
    by_cases hm : f0 = "Masked Card Number"
    · have hstep : rowStep line ic0 st0 = some (true, st0, none) := by
        unfold rowStep
        simp [h1, h0, h1b, h0b, hm]
      rw [hcons ic0 st0, hstep]
      dsimp only []
      rw [if_pos (by rw [h0, hm])]
      cases hrec : rowsParse ls true st0 with
      | none => rfl
      | some q => obtain ⟨a, b, c⟩ := q; rfl
    · by_cases hp : f0 = "Posted Account"
      · have hstep : rowStep line ic0 st0 = some (false, st0, none) := by
          unfold rowStep
          simp [h1, h0, h1b, h0b, hm, hp]
        rw [hcons ic0 st0, hstep]
        dsimp only []
        rw [if_neg (by rw [h0]; simp [hm]), if_pos (by rw [h0, hp])]
        cases hrec : rowsParse ls false st0 with
        | none => rfl
        | some q => obtain ⟨a, b, c⟩ := q; rfl
      · have hstep : rowStep line ic0 st0 = none := by
          unfold rowStep
          simp [h1, h0, h1b, h0b, hm, hp]
        rw [hcons ic0 st0, hstep]
        rw [if_neg (by rw [h0]; simp [hm]), if_neg (by rw [h0]; simp [hp])]
  refine ⟨hmain ic st, fun hnm hnp more st2 => ?_⟩
  unfold filesParse
  rw [hmain false st2, if_neg hnm, if_neg hnp]

/-- Witness for claim C8: a debit header marker switches the flag to debit
and yields no transaction. -/
theorem claim8_witness :
    rowsParse [["Posted Account", " Posted Transactions Date", "x"]] true ⟨none, 1⟩ =
      some (false, ⟨none, 1⟩, []) :=
  ((claim8_header_marker ["Posted Account", " Posted Transactions Date", "x"] [] true
    ⟨none, 1⟩ rfl).1).trans (by decide)

/-- Claim C9: on any row with at least 7 fields, `valueParse` returns a
non-empty string (the fallback branch always prepends `-`), so the
emitter's sign flip, which reads the value's first character, never
indexes out of range. -/
theorem claim9_value_nonempty (line : List String) (iscredit : Bool)
    (h : 7 ≤ line.length) :
    ∃ v, valueParse line iscredit = some v ∧ v ≠ "" ∧ (invertValue v).isSome = true := by
  obtain ⟨v, hv, hne⟩ := valueParse_nonempty line iscredit h
  refine ⟨v, hv, hne, ?_⟩
  cases hd : v.data with
  | nil => exact absurd (String.ext (hd.trans rfl)) hne
  | cons c cs =>
    unfold invertValue
    rw [hd]
    rfl

/-- Witness for claim C9 at a concrete debit row with an empty field 5. -/
theorem claim9_witness :
    ∃ v, valueParse ["d", "05/03/2021", "coffee", "", "", "", "4.00"] false = some v ∧
      v ≠ "" ∧ (invertValue v).isSome = true :=
  claim9_value_nonempty ["d", "05/03/2021", "coffee", "", "", "", "4.00"] false (by decide)

/-- Claim C10: the sub-format flag does not carry over between files: a new
file's rows before its first header marker are parsed with the debit layout
(`rowsParse pre false _` below), whatever the preceding files contained. -/
theorem claim10_subformat_reset (files : List (List (List String)))
    (pre post : List (List String)) (more : List (List (List String)))
    (st0 st1 : ParseState) (ts : List transaction)
    (hfiles : filesParse files st0 = some (st1, ts))
    (hpre : ∀ l ∈ pre, ¬ l.get? 1 = some " Posted Transactions Date") :
    filesParse (files ++ (pre ++ post) :: more) st0 =
      (match rowsParse pre false st1 with
       | none => none
       | some (_, stP, tsP) =>
         match rowsParse post false stP with
         | none => none
         | some (_, stQ, tsQ) =>
           match filesParse more stQ with
           | none => none
           | some (stR, tsR) => some (stR, ts ++ ((tsP ++ tsQ) ++ tsR))) := by
  have hconsF : filesParse ((pre ++ post) :: more) st1 =
      match rowsParse (pre ++ post) false st1 with
      | none => none
      | some (_, stA, tsA) =>
        match filesParse more stA with
        | none => none
        | some (st2, ts2) => some (st2, tsA ++ ts2) := rfl
  rw [filesParse_append files ((pre ++ post) :: more) st0, hfiles]
  dsimp only []
  rw [hconsF, rowsParse_append pre post false st1]
  cases hP : rowsParse pre false st1 with
  | none => rfl
  | some p =>
    obtain ⟨icP, stP, tsP⟩ := p
    have hic : icP = false := rowsParse_no_header_ic pre false st1 (icP, stP, tsP) hpre hP
    subst hic
    dsimp only []
    cases hQ : rowsParse post false stP with
    | none => rfl
    | some q =>
      obtain ⟨icQ, stQ, tsQ⟩ := q
      dsimp only []
      cases hR : filesParse more stQ with
      | none => rfl
      | some r =>
        obtain ⟨stR, tsR⟩ := r
        dsimp only []

/-- Witness for claim C10: after a credit-layout file, a headerless data
row in the next file is parsed with the debit columns (value `7.00` from
field 5). -/
theorem claim10_witness :
    filesParse [c10File1, [c10Row]] ⟨none, 1⟩ =
      some (⟨some ⟨2021, 3, 6⟩, 2⟩, [c10T1, c10T2]) :=
  (claim10_subformat_reset [c10File1] [c10Row] [] [] ⟨none, 1⟩
    ⟨some ⟨2021, 3, 5⟩, 2⟩ [c10T1] (by decide) (by decide)).trans (by decide)

/-- Claim C7, counterexample: a three-transaction run (so far fewer than
100 transactions share any date) with dates A, B, A yields ids
`2020010101`, `2020010201`, `2020010101`: the counter resets to 1 when
date A reappears after B, so the ids are not pairwise distinct. -/
theorem claim7_counterexample :
    inputsParse c7CexFiles = some c7CexTs ∧
    c7CexTs.length = 3 ∧
    (List.map transaction.Date c7CexTs).count ⟨2020, 1, 1⟩ = 2 ∧
    (List.map transaction.Date c7CexTs).count ⟨2020, 1, 2⟩ = 1 ∧
    ¬ (List.map transaction.ID c7CexTs).Nodup :=
  ⟨by decide, rfl, by decide, by decide, by decide⟩

/-- Claim C7, amended: in every run in which fewer than 100 transactions
share any single date, every generated id is the 10-character
concatenation of the zero-padded 4-digit year, 2-digit month, 2-digit day
and 2-digit counter (all characters decimal digits), with the first
transaction of each new date getting counter 1; and — additionally
assuming that equal-dated transactions are contiguous in the stream — all
ids of the run are pairwise distinct. -/
theorem claim7_amended (files : List (List (List String))) (ts : List transaction)
    (h : inputsParse files = some ts)
    (hcount : ∀ d : GoDate, (List.map transaction.Date ts).count d < 100) :
    List.map transaction.ID ts =
      List.zipWith idFormat (List.map transaction.Date ts)
        (counterSpec none 1 (List.map transaction.Date ts)) ∧
    (∀ t ∈ ts, t.ID.length = 10 ∧ ∀ ch ∈ t.ID.data, isDigitChar ch = true) ∧
    (∀ t0, ts.get? 0 = some t0 → t0.ID = idFormat t0.Date 1) ∧
    (∀ i ti tj, ts.get? i = some ti → ts.get? (i + 1) = some tj → tj.Date ≠ ti.Date →
      tj.ID = idFormat tj.Date 1) ∧
    (Grouped (List.map transaction.Date ts) → (List.map transaction.ID ts).Nodup) := by
  have h1 := inputsParse_spec files ts h
  have hdok : ∀ t ∈ ts, dateOK t.Date := inputsParse_dates files ts h
  have hdatesok : ∀ d ∈ List.map transaction.Date ts, dateOK d := by
    intro d hd
    obtain ⟨t, ht, rfl⟩ := List.mem_map.mp hd
    exact hdok t ht
  have hcs : ∀ c ∈ counterSpec none 1 (List.map transaction.Date ts), c ≤ 99 := by
    apply counterSpec_le
    intro d
    have hcd := hcount d
    rw [if_neg (by simp)]
    omega
  refine ⟨h1, ?_, ?_, ?_, ?_⟩
  · intro t ht
    have hmem : t.ID ∈ List.map transaction.ID ts := List.mem_map_of_mem transaction.ID ht
    rw [h1, zipWith_eq_map_zip] at hmem
    obtain ⟨p, hp, hpe⟩ := List.mem_map.mp hmem
    obtain ⟨hp1, hp2⟩ := List.of_mem_zip hp
    rw [← hpe]
    exact ⟨idFormat_length p.1 p.2 (hdatesok p.1 hp1) (hcs p.2 hp2),
      idFormat_digits p.1 p.2⟩
  · intro t0 h0
    have hidid : (List.map transaction.ID ts).get? 0 = some t0.ID := by
      rw [List.get?_map, h0]
      rfl
    have hd0 : (List.map transaction.Date ts).get? 0 = some t0.Date := by
      rw [List.get?_map, h0]
      rfl
    have hc0 : (counterSpec none 1 (List.map transaction.Date ts)).get? 0 = some 1 :=
      counterSpec_get?_zero _ 1 t0.Date hd0
    have hz := zipWith_get?_eq idFormat _ _ 0 t0.Date 1 hd0 hc0
    rw [h1, hz] at hidid
    exact (Option.some.inj hidid).symm
  · intro i ti tj hi hj hne
    have hidid : (List.map transaction.ID ts).get? (i + 1) = some tj.ID := by
      rw [List.get?_map, hj]
      rfl
    have hdi : (List.map transaction.Date ts).get? i = some ti.Date := by
      rw [List.get?_map, hi]
      rfl
    have hdj : (List.map transaction.Date ts).get? (i + 1) = some tj.Date := by
      rw [List.get?_map, hj]
      rfl
    have hc1 : (counterSpec none 1 (List.map transaction.Date ts)).get? (i + 1) = some 1 :=
      counterSpec_get?_succ _ none 1 i ti.Date tj.Date hdi hdj hne
    have hz := zipWith_get?_eq idFormat _ _ (i + 1) tj.Date 1 hdj hc1
    rw [h1, hz] at hidid
    exact (Option.some.inj hidid).symm
  · intro hgrp
    have hpairs := counterSpec_pairs_nodup (List.map transaction.Date ts) none 1 hgrp
    have hdecEq : (List.map transaction.ID ts).map (fun s => decDigits 0 s.data) =
        ((List.map transaction.Date ts).zip
          (counterSpec none 1 (List.map transaction.Date ts))).map
          (fun p => idValue p.1 p.2) := by
      rw [h1, List.map_zipWith]
      rw [zipWith_congr_mem (fun x y => decDigits 0 (idFormat x y).data)
        (fun x y => idValue x y) _ _
        (fun a ha b hb => decDigits_idFormat a b (hdatesok a ha) (hcs b hb))]
      exact zipWith_eq_map_zip _ _ _
    have hinj : ∀ p ∈ (List.map transaction.Date ts).zip
        (counterSpec none 1 (List.map transaction.Date ts)),
        ∀ q ∈ (List.map transaction.Date ts).zip
        (counterSpec none 1 (List.map transaction.Date ts)),
        (fun p => idValue p.1 p.2) p = (fun p => idValue p.1 p.2) q → p = q := by
      intro p hp q hq heq
      obtain ⟨pd, pc⟩ := p
      obtain ⟨qd, qc⟩ := q
      obtain ⟨hp1, hp2⟩ := List.of_mem_zip hp
      obtain ⟨hq1, hq2⟩ := List.of_mem_zip hq
      have hod := hdatesok pd hp1
      have hoq := hdatesok qd hq1
      have hbc := hcs pc hp2
      have hbd := hcs qc hq2
      obtain ⟨py, pm, pdd⟩ := pd
      obtain ⟨qy, qm, qdd⟩ := qd
      obtain ⟨hy1, hm11, hm12, hd11, hd12⟩ := hod
      obtain ⟨hy2, hm21, hm22, hd21, hd22⟩ := hoq
      simp only [idValue] at heq
      simp only [] at heq hy1 hm11 hm12 hd11 hd12 hy2 hm21 hm22 hd21 hd22
      have e1 : py = qy := by omega
      have e2 : pm = qm := by omega
      have e3 : pdd = qdd := by omega
      have e4 : pc = qc := by omega
      subst e1
      subst e2
      subst e3
      subst e4
      rfl
    have hmapped := hpairs.map_on hinj
    rw [← hdecEq] at hmapped
    exact List.Nodup.of_map _ hmapped

/-- Witness for the amended claim C7: a grouped run (dates d, d, e) whose
three ids are pairwise distinct. -/
theorem claim7_amended_witness :
    inputsParse c7WFiles = some c7WTs ∧ (List.map transaction.ID c7WTs).Nodup := by
  have hlen : (List.map transaction.Date c7WTs).length = 3 := rfl
  have hc : ∀ d : GoDate, (List.map transaction.Date c7WTs).count d < 100 := by
    intro d
    have hle := List.count_le_length d (List.map transaction.Date c7WTs)
    rw [hlen] at hle
    omega
  have h := claim7_amended c7WFiles c7WTs (by decide) hc
  refine ⟨by decide, h.2.2.2.2 ?_⟩
  show Grouped (List.map transaction.Date c7WTs)
  have e : List.map transaction.Date c7WTs =
      [⟨2021, 3, 5⟩, ⟨2021, 3, 5⟩, ⟨2021, 3, 6⟩] := rfl
  rw [e]
  refine Grouped.cons _ _ (Grouped.cons _ _ (Grouped.cons _ _ Grouped.nil ?_) ?_) ?_
  · intro hm
    cases hm
  · intro hm
    exact absurd hm (by decide)
  · intro hm
    rfl

end Bankcsv
